import Mathlib

/-!
# Verification of the SLIP-39 / BIP-39 passphrase brute-force scripts

A shallow embedding of the candidate-search engine found in `main.py`,
`bip39_bruteforce.py` and `slip39_and_bip39_hybrid_bruteforce.py`.

Python strings are modelled as `List Char`; `itertools.combinations` and
`itertools.permutations` are modelled by executable list functions with the
same enumeration order (combinations in lexicographic order of index tuples,
permutations by picking remaining elements in index order).  External
cryptographic calls (`slip39.recover`, address derivation) are modelled as
oracle parameters, since the scripts treat them as black boxes and only the
surrounding control flow lives in this repository.
-/

namespace BruteForce

/-- A Python string, modelled as its list of characters. -/
abbrev PyStr := List Char

/-- `itertools.combinations(xs, k)`: all length-`k` sublists of `xs`,
in the order `itertools` produces them (lexicographic by index tuple). -/
def combinations : Nat → List α → List (List α)
  | 0, _ => [[]]
  | _ + 1, [] => []
  | k + 1, x :: xs => (combinations k xs).map (x :: ·) ++ combinations (k + 1) xs

/-- All ways to pick one element out of a list, returning the element and the
remaining list (order preserved), in index order of the picked element. -/
def selections : List α → List (α × List α)
  | [] => []
  | x :: xs => (x, xs) :: (selections xs).map (fun p => (p.1, x :: p.2))

/-- Fuelled core of `itertools.permutations(xs)` (full-length permutations):
pick each remaining element in index order, recurse on the rest. -/
def permsAux : Nat → List α → List (List α)
  | _, [] => [[]]
  | 0, _ :: _ => []
  | fuel + 1, x :: xs =>
    (selections (x :: xs)).flatMap (fun p => (permsAux fuel p.2).map (p.1 :: ·))

/-- `itertools.permutations(xs)`: every ordering of `xs`, in the order
`itertools` produces them (lexicographic by index sequence into `xs`). -/
def permutationsL (xs : List α) : List (List α) := permsAux xs.length xs

/-- `main.py` lines 19-25, `generate_word_combinations`: for every subset
size from 1 to `n`, every combination, every permutation, joined with `" "`. -/
def generate_word_combinations (words : List PyStr) : List PyStr :=
  (List.range' 1 words.length).flatMap fun length =>
    (combinations length words).flatMap fun combo =>
      (permutationsL combo).map fun perm => List.intercalate [' '] perm

/-- `bip39_bruteforce.py` lines 24-30, `generate_word_combinations`:
same enumeration, but candidates are concatenated without a separator. -/
def bip39_generate_word_combinations (words : List PyStr) : List PyStr :=
  (List.range' 1 words.length).flatMap fun length =>
    (combinations length words).flatMap fun combo =>
      (permutationsL combo).map fun perm => perm.flatten

/-- `slip39_and_bip39_hybrid_bruteforce.py` lines 48-57,
`generate_passphrase_combinations`: yields the empty passphrase first, then
the same enumeration as `bip39_generate_word_combinations` (no separator). -/
def generate_passphrase_combinations (components : List PyStr) : List PyStr :=
  [] :: (List.range' 1 components.length).flatMap fun length =>
    (combinations length components).flatMap fun combo =>
      (permutationsL combo).map fun perm => perm.flatten

/-- `main.py` lines 152-158: the closed-form total
`sum over r in 1..n of math.comb(n, r) * math.factorial(r)`,
accumulated exactly as the Python loop does. -/
def totalCombinationsMain (words : List PyStr) : Nat :=
  (List.range' 1 words.length).foldl
    (fun total r => total + Nat.choose words.length r * Nat.factorial r) 0

/-- `slip39_and_bip39_hybrid_bruteforce.py` lines 60-73,
`count_total_combinations`: starts at 1 (the empty passphrase), then adds
`len(list(itertools.combinations(components, length)))` times a factorial
computed by an explicit product loop. -/
def count_total_combinations (components : List PyStr) : Nat :=
  (List.range' 1 components.length).foldl
    (fun total length =>
      total + (combinations length components).length *
        (List.range' 1 length).foldl (fun acc i => acc * i) 1) 1

/-- The spec formula `Σ_{L=1..n} C(n,L)·L!` as a sum over the list `[1..n]`. -/
def listFormula (n : Nat) : Nat :=
  ((List.range' 1 n).map (fun L => Nat.choose n L * Nat.factorial L)).sum

/-- Sanity: `combinations` enumerates exactly as `itertools.combinations`. -/
theorem combinations_order_check :
    combinations 2 [0, 1, 2] = [[0, 1], [0, 2], [1, 2]] := by decide

/-- Sanity: `permutationsL` enumerates exactly as `itertools.permutations`. -/
theorem permutations_order_check : permutationsL [0, 1, 2] =
    [[0, 1, 2], [0, 2, 1], [1, 0, 2], [1, 2, 0], [2, 0, 1], [2, 1, 0]] := by
  decide

/-! ## Counting lemmas -/

theorem length_combinations (k : Nat) (xs : List α) :
    (combinations k xs).length = Nat.choose xs.length k := by
  induction xs generalizing k with
  | nil => cases k <;> simp [combinations]
  | cons x xs ih =>
    cases k with
    | zero => simp [combinations]
    | succ k =>
      simp [combinations, ih, Nat.choose_succ_succ]

theorem length_of_mem_combinations {k : Nat} {xs c : List α}
    (h : c ∈ combinations k xs) : c.length = k := by
  induction xs generalizing k c with
  | nil => cases k <;> simp_all [combinations]
  | cons x xs ih =>
    cases k with
    | zero => simp_all [combinations]
    | succ k =>
      simp only [combinations, List.mem_append, List.mem_map] at h
      rcases h with ⟨c', hc', rfl⟩ | h
      · simp [ih hc']
      · exact ih h

theorem sublist_of_mem_combinations {k : Nat} {xs c : List α}
    (h : c ∈ combinations k xs) : c.Sublist xs := by
  induction xs generalizing k c with
  | nil => cases k <;> simp_all [combinations]
  | cons x xs ih =>
    cases k with
    | zero =>
      simp only [combinations, List.mem_singleton] at h
      simp [h]
    | succ k =>
      simp only [combinations, List.mem_append, List.mem_map] at h
      rcases h with ⟨c', hc', rfl⟩ | h
      · exact (ih hc').cons₂ x
      · exact (ih h).cons x

theorem selections_map_fst (xs : List α) : (selections xs).map Prod.fst = xs := by
  induction xs with
  | nil => rfl
  | cons x xs ih => simp [selections, List.map_map, Function.comp_def, ih]

theorem length_selections (xs : List α) : (selections xs).length = xs.length := by
  induction xs <;> simp [selections, *]

theorem snd_length_of_mem_selections {xs : List α} {p : α × List α}
    (h : p ∈ selections xs) : p.2.length + 1 = xs.length := by
  induction xs generalizing p with
  | nil => simp [selections] at h
  | cons x xs ih =>
    simp only [selections, List.mem_cons, List.mem_map] at h
    rcases h with rfl | ⟨q, hq, rfl⟩
    · simp
    · simpa using ih hq

theorem snd_sublist_of_mem_selections {xs : List α} {p : α × List α}
    (h : p ∈ selections xs) : p.2.Sublist xs := by
  induction xs generalizing p with
  | nil => simp [selections] at h
  | cons x xs ih =>
    simp only [selections, List.mem_cons, List.mem_map] at h
    rcases h with rfl | ⟨q, hq, rfl⟩
    · exact List.sublist_cons_self x xs
    · exact (ih hq).cons₂ x

theorem cons_perm_of_mem_selections {xs : List α} {p : α × List α}
    (h : p ∈ selections xs) : (p.1 :: p.2).Perm xs := by
  induction xs generalizing p with
  | nil => simp [selections] at h
  | cons x xs ih =>
    simp only [selections, List.mem_cons, List.mem_map] at h
    rcases h with rfl | ⟨q, hq, rfl⟩
    · rfl
    · exact (List.Perm.swap x q.1 q.2).trans ((ih hq).cons x)

theorem sum_map_const {l : List β} {f : β → Nat} {c : Nat}
    (h : ∀ x ∈ l, f x = c) : (l.map f).sum = l.length * c := by
  induction l with
  | nil => simp
  | cons x l ih =>
    simp only [List.map_cons, List.sum_cons, List.length_cons]
    rw [h x (by simp), ih (fun y hy => h y (by simp [hy])), Nat.succ_mul,
      Nat.add_comm]

theorem length_permsAux {fuel : Nat} {xs : List α} (h : xs.length ≤ fuel) :
    (permsAux fuel xs).length = Nat.factorial xs.length := by
  induction fuel generalizing xs with
  | zero =>
    cases xs with
    | nil => simp [permsAux, Nat.factorial]
    | cons x xs => simp at h
  | succ fuel ih =>
    cases xs with
    | nil => simp [permsAux, Nat.factorial]
    | cons x xs =>
      rw [permsAux, List.length_flatMap]
      rw [sum_map_const (c := Nat.factorial xs.length) ?_, length_selections]
      · simp [Nat.factorial]
      · intro p hp
        have h2 := snd_length_of_mem_selections hp
        simp only [List.length_cons] at h2 h
        have h3 : p.2.length = xs.length := by omega
        simp only [Function.comp_apply, List.length_map]
        rw [ih (by omega), h3]

theorem length_permutationsL (xs : List α) :
    (permutationsL xs).length = Nat.factorial xs.length :=
  length_permsAux le_rfl

theorem length_flat_gen (join : List PyStr → PyStr) (words : List PyStr) :
    ((List.range' 1 words.length).flatMap fun length =>
      (combinations length words).flatMap fun combo =>
        (permutationsL combo).map join).length = listFormula words.length := by
  rw [List.length_flatMap, listFormula]
  congr 1
  apply List.map_congr_left
  intro L _
  simp only [Function.comp_apply, List.length_flatMap]
  rw [sum_map_const (c := Nat.factorial L) ?_, length_combinations]
  · intro c hc
    simp [length_permutationsL, length_of_mem_combinations hc]

theorem gwc_length (words : List PyStr) :
    (generate_word_combinations words).length = listFormula words.length :=
  length_flat_gen _ words

theorem bip39_gwc_length (words : List PyStr) :
    (bip39_generate_word_combinations words).length = listFormula words.length :=
  length_flat_gen _ words

theorem gpc_length (components : List PyStr) :
    (generate_passphrase_combinations components).length =
      1 + listFormula components.length := by
  rw [generate_passphrase_combinations, List.length_cons, Nat.add_comm]
  rw [length_flat_gen (fun perm => perm.flatten) components]

theorem prod_range'_eq_factorial (L : Nat) :
    (List.range' 1 L).foldl (fun acc i => acc * i) 1 = Nat.factorial L := by
  induction L with
  | zero => rfl
  | succ L ih =>
    rw [List.range'_concat, List.foldl_append, ih]
    simp only [List.foldl_cons, List.foldl_nil, Nat.one_mul, Nat.factorial_succ]
    ring

theorem foldl_add_eq_sum (f : Nat → Nat) (l : List Nat) (a : Nat) :
    l.foldl (fun t r => t + f r) a = a + (l.map f).sum := by
  induction l generalizing a with
  | nil => simp
  | cons x l ih => simp [ih, Nat.add_assoc]

theorem mainTotal_eq (words : List PyStr) :
    totalCombinationsMain words = listFormula words.length := by
  rw [totalCombinationsMain, foldl_add_eq_sum, listFormula, Nat.zero_add]

theorem count_total_eq (components : List PyStr) :
    count_total_combinations components = 1 + listFormula components.length := by
  rw [count_total_combinations, foldl_add_eq_sum, listFormula]
  have h : ∀ L ∈ List.range' 1 components.length,
      (combinations L components).length *
        (List.range' 1 L).foldl (fun acc i => acc * i) 1 =
      Nat.choose components.length L * Nat.factorial L := by
    intro L _
    rw [length_combinations, prod_range'_eq_factorial]
  rw [List.map_congr_left h]

theorem listFormula_eq_sum (n : Nat) :
    listFormula n = ∑ L ∈ Finset.Icc 1 n, Nat.choose n L * Nat.factorial L := by
  rw [Nat.Icc_eq_range', Finset.sum_eq_multiset_sum]
  simp only [Multiset.map_coe, Multiset.sum_coe, Nat.add_sub_cancel, listFormula]

/-! ## Enumeration-order lemmas -/

/-- The index-level candidate stream: for every subset size `L` from 1 to `n`,
every increasing index tuple drawn from `0..n-1`, every ordering of it. -/
def idxCandidates (n : Nat) : List (List Nat) :=
  (List.range' 1 n).flatMap fun length =>
    (combinations length (List.range n)).flatMap fun combo => permutationsL combo

theorem pairwise_of_mem {l : List γ} {R : γ → γ → Prop}
    (h : ∀ a ∈ l, ∀ b ∈ l, R a b) : l.Pairwise R := by
  induction l with
  | nil => exact List.Pairwise.nil
  | cons x l ih =>
    rw [List.pairwise_cons]
    exact ⟨fun b hb => h x (by simp) b (by simp [hb]),
      ih fun a ha b hb => h a (by simp [ha]) b (by simp [hb])⟩

theorem pairwise_flatMap_of {l : List β} {f : β → List γ} {S : β → β → Prop}
    {R : γ → γ → Prop}
    (h1 : l.Pairwise S) (h2 : ∀ a ∈ l, (f a).Pairwise R)
    (h3 : ∀ a ∈ l, ∀ b ∈ l, S a b → ∀ x ∈ f a, ∀ y ∈ f b, R x y) :
    (l.flatMap f).Pairwise R := by
  induction l with
  | nil => simp
  | cons a l ih =>
    rw [List.flatMap_cons, List.pairwise_append]
    obtain ⟨ha, hl⟩ := List.pairwise_cons.mp h1
    refine ⟨h2 a (by simp), ih hl (fun b hb => h2 b (by simp [hb]))
      (fun b hb c hc => h3 b (by simp [hb]) c (by simp [hc])), ?_⟩
    intro x hx y hy
    obtain ⟨b, hb, hyb⟩ := List.mem_flatMap.mp hy
    exact h3 a (by simp) b (by simp [hb]) (ha b hb) x hx y hyb

theorem combinations_map (f : α → β) (k : Nat) (xs : List α) :
    combinations k (xs.map f) = (combinations k xs).map (List.map f) := by
  induction xs generalizing k with
  | nil => cases k <;> simp [combinations]
  | cons x xs ih =>
    cases k with
    | zero => simp [combinations]
    | succ k =>
      simp [combinations, ih, List.map_map, Function.comp_def]

theorem selections_map (f : α → β) (xs : List α) :
    selections (xs.map f) = (selections xs).map (fun p => (f p.1, p.2.map f)) := by
  induction xs with
  | nil => rfl
  | cons x xs ih => simp [selections, ih, List.map_map, Function.comp_def]

theorem permsAux_map (f : α → β) (fuel : Nat) (xs : List α) :
    permsAux fuel (xs.map f) = (permsAux fuel xs).map (List.map f) := by
  induction fuel generalizing xs with
  | zero => cases xs <;> simp [permsAux]
  | succ fuel ih =>
    cases xs with
    | nil => simp [permsAux]
    | cons x xs =>
      rw [List.map_cons, permsAux, permsAux, ← List.map_cons]
      rw [selections_map]
      simp [List.flatMap_map, List.map_flatMap, ih, List.map_map,
        Function.comp_def]

theorem permutationsL_map (f : α → β) (xs : List α) :
    permutationsL (xs.map f) = (permutationsL xs).map (List.map f) := by
  rw [permutationsL, permutationsL, List.length_map, permsAux_map]

theorem map_getD_range (l : List α) (d : α) :
    (List.range l.length).map (fun i => l.getD i d) = l := by
  induction l with
  | nil => rfl
  | cons x l ih =>
    rw [List.length_cons, List.range_succ_eq_map]
    simpa [List.map_map, Function.comp_def] using ih

theorem flat_map_decode (join : List PyStr → PyStr) (g : Nat → PyStr) (n : Nat) :
    ((List.range' 1 n).flatMap fun length =>
      (combinations length ((List.range n).map g)).flatMap fun combo =>
        (permutationsL combo).map join)
    = ((List.range' 1 n).flatMap fun length =>
        (combinations length (List.range n)).flatMap fun combo =>
          permutationsL combo).map (fun is => join (is.map g)) := by
  simp [combinations_map, List.flatMap_map, List.map_flatMap,
    permutationsL_map, List.map_map, Function.comp_def]

theorem gen_eq_idx (join : List PyStr → PyStr) (words : List PyStr) :
    ((List.range' 1 words.length).flatMap fun length =>
      (combinations length words).flatMap fun combo =>
        (permutationsL combo).map join)
    = (idxCandidates words.length).map
        (fun is => join (is.map (fun i => words.getD i []))) := by
  conv_lhs =>
    rw [show words = (List.range words.length).map (fun i => words.getD i [])
      from (map_getD_range words []).symm]
  rw [List.length_map, List.length_range, idxCandidates, flat_map_decode]

theorem exists_cons_of_mem_combinations {k : Nat} {xs c : List α}
    (h : c ∈ combinations (k + 1) xs) : ∃ y t, c = y :: t ∧ y ∈ xs := by
  have hl := length_of_mem_combinations h
  have hsub := sublist_of_mem_combinations h
  cases c with
  | nil => simp at hl
  | cons y t => exact ⟨y, t, rfl, List.Sublist.mem (List.mem_cons_self y t) hsub⟩

theorem combinations_pairwise_lex {xs : List Nat} (hs : xs.Pairwise (· < ·)) :
    ∀ k, (combinations k xs).Pairwise (List.Lex (· < ·)) := by
  induction xs with
  | nil => intro k; cases k <;> simp [combinations]
  | cons x xs ih =>
    intro k
    cases k with
    | zero => simp [combinations]
    | succ k =>
      rw [combinations, List.pairwise_append]
      obtain ⟨hx, hxs⟩ := List.pairwise_cons.mp hs
      refine ⟨?_, ih hxs (k + 1), ?_⟩
      · rw [List.pairwise_map]
        exact (ih hxs k).imp (fun h => List.Lex.cons h)
      · intro a ha b hb
        obtain ⟨c, _, rfl⟩ := List.mem_map.mp ha
        obtain ⟨y, t, rfl, hy⟩ := exists_cons_of_mem_combinations hb
        exact List.Lex.rel (hx y hy)

theorem permsAux_pairwise_lex {fuel : Nat} {xs : List Nat} (h : xs.length ≤ fuel)
    (hs : xs.Pairwise (· < ·)) :
    (permsAux fuel xs).Pairwise (List.Lex (· < ·)) := by
  induction fuel generalizing xs with
  | zero =>
    cases xs with
    | nil => simp [permsAux]
    | cons x xs => simp at h
  | succ fuel ih =>
    cases xs with
    | nil => simp [permsAux]
    | cons x xs =>
      rw [permsAux]
      apply pairwise_flatMap_of (S := fun p q : Nat × List Nat => p.1 < q.1)
      · have h1 := hs
        rw [← selections_map_fst (x :: xs)] at h1
        exact List.pairwise_map.mp h1
      · intro p hp
        rw [List.pairwise_map]
        have hsub := snd_sublist_of_mem_selections hp
        have hlen := snd_length_of_mem_selections hp
        simp only [List.length_cons] at hlen h
        exact (ih (by omega) (List.Pairwise.sublist hsub hs)).imp
          (fun h => List.Lex.cons h)
      · intro p _ q _ hpq a ha b hb
        obtain ⟨pa, _, rfl⟩ := List.mem_map.mp ha
        obtain ⟨qb, _, rfl⟩ := List.mem_map.mp hb
        exact List.Lex.rel hpq

theorem permutationsL_pairwise_lex {xs : List Nat} (hs : xs.Pairwise (· < ·)) :
    (permutationsL xs).Pairwise (List.Lex (· < ·)) :=
  permsAux_pairwise_lex le_rfl hs

theorem perm_of_mem_permsAux {fuel : Nat} {xs p : List α} (h : xs.length ≤ fuel)
    (hp : p ∈ permsAux fuel xs) : p.Perm xs := by
  induction fuel generalizing xs p with
  | zero =>
    cases xs with
    | nil => simp only [permsAux, List.mem_singleton] at hp; simp [hp]
    | cons x xs => simp at h
  | succ fuel ih =>
    cases xs with
    | nil => simp only [permsAux, List.mem_singleton] at hp; simp [hp]
    | cons x xs =>
      rw [permsAux] at hp
      simp only [List.mem_flatMap, List.mem_map] at hp
      obtain ⟨q, hq, r, hr, rfl⟩ := hp
      have hperm := cons_perm_of_mem_selections hq
      have hlen := snd_length_of_mem_selections hq
      simp only [List.length_cons] at hlen h
      exact ((ih (by omega) hr).cons q.1).trans hperm

theorem mem_selections_erase [DecidableEq α] {y : α} {l : List α} (hy : y ∈ l) :
    (y, l.erase y) ∈ selections l := by
  induction l with
  | nil => simp at hy
  | cons z l ih =>
    by_cases hzy : z = y
    · subst hzy
      simp [selections, List.erase_cons_head]
    · have hy' : y ∈ l := by
        rcases List.mem_cons.mp hy with h | h
        · exact absurd h.symm hzy
        · exact h
      rw [List.erase_cons_tail (by simp [hzy])]
      simp only [selections, List.mem_cons, List.mem_map]
      exact Or.inr ⟨(y, l.erase y), ih hy', rfl⟩

theorem mem_permsAux_of_perm [DecidableEq α] {fuel : Nat} {xs p : List α}
    (h : xs.length ≤ fuel) (hp : p.Perm xs) : p ∈ permsAux fuel xs := by
  induction fuel generalizing xs p with
  | zero =>
    cases xs with
    | nil => simp [permsAux, List.Perm.eq_nil hp]
    | cons x xs => simp at h
  | succ fuel ih =>
    cases xs with
    | nil => simp [permsAux, List.Perm.eq_nil hp]
    | cons x xs =>
      cases p with
      | nil =>
        have := hp.length_eq
        simp at this
      | cons y p =>
        have hy : y ∈ x :: xs := hp.subset (List.mem_cons_self y p)
        have hperm : p.Perm ((x :: xs).erase y) :=
          (hp.trans (List.perm_cons_erase hy)).cons_inv
        rw [permsAux]
        simp only [List.mem_flatMap, List.mem_map]
        refine ⟨(y, (x :: xs).erase y), mem_selections_erase hy, p, ih ?_ hperm, rfl⟩
        show ((x :: xs).erase y).length ≤ fuel
        have := List.length_erase_of_mem hy
        simp only [List.length_cons] at this h
        omega

theorem mem_permutationsL_iff {xs p : List Nat} :
    p ∈ permutationsL xs ↔ p.Perm xs :=
  ⟨perm_of_mem_permsAux le_rfl, mem_permsAux_of_perm le_rfl⟩

theorem length_of_mem_idx_block {n L : Nat} {x : List Nat}
    (hx : x ∈ (combinations L (List.range n)).flatMap fun combo =>
      permutationsL combo) : x.length = L := by
  obtain ⟨c, hc, hxc⟩ := List.mem_flatMap.mp hx
  rw [(perm_of_mem_permsAux le_rfl hxc).length_eq]
  exact length_of_mem_combinations hc

theorem idxCandidates_length_ascending (n : Nat) :
    (idxCandidates n).Pairwise (fun a b => a.length ≤ b.length) := by
  rw [idxCandidates]
  apply pairwise_flatMap_of (S := (· ≤ ·))
  · exact (List.pairwise_lt_range' 1 n).imp Nat.le_of_lt
  · intro L _
    apply pairwise_of_mem
    intro a ha b hb
    rw [length_of_mem_idx_block ha, length_of_mem_idx_block hb]
  · intro L1 _ L2 _ hle a ha b hb
    rw [length_of_mem_idx_block ha, length_of_mem_idx_block hb]
    exact hle

/-! ## Python string helpers -/

/-- ASCII whitespace, as recognised by Python `str.strip` / `str.split`. -/
def isPySpace (c : Char) : Bool :=
  c = ' ' || c = '\t' || c = '\n' || c = '\r' || c = '\x0b' || c = '\x0c'

/-- Python `str.strip()`. -/
def pyStrip (s : PyStr) : PyStr :=
  ((s.dropWhile isPySpace).reverse.dropWhile isPySpace).reverse

/-- Python `str.split()` with no argument: split on whitespace runs,
dropping empty pieces. -/
def pySplitWs (s : PyStr) : List PyStr :=
  (List.splitOnP isPySpace s).filter (fun w => w ≠ [])

/-- Python `str.lower()` (ASCII model, as in `Char.toLower`). -/
def pyLower (s : PyStr) : PyStr := s.map Char.toLower

/-! ## Match normalization

The two scripts normalize the target slightly differently, so both
pipelines are embedded: the hybrid script (lines 229-233) lower-cases and
prepends `0x`; `bip39_bruteforce.py` (lines 78-81) lower-cases, *strips
surrounding whitespace*, and then prepends `0x`. -/

/-- The one-time target normalization of the hybrid script's `main`
(lines 229-233): `target_address.lower()`, then prepend `0x` if absent. -/
def normalize_target (t : PyStr) : PyStr :=
  let t' := pyLower t
  if ['0', 'x'].isPrefixOf t' then t' else '0' :: 'x' :: t'

/-- The per-candidate comparison `address.lower() == target_address.lower()`
(hybrid `test_all_methods`, line 185) composed with the hybrid's one-time
target normalization: the complete hybrid matching pipeline from raw target
entry to boolean outcome. -/
def address_matches (address target : PyStr) : Bool :=
  pyLower address == pyLower (normalize_target target)

/-- The one-time target normalization of `brute_force_bip39_passphrase`
(bip39_bruteforce.py lines 78-81): `target_address.lower().strip()`, then
prepend `0x` if absent. -/
def bip39_normalize_target (t : PyStr) : PyStr :=
  let t' := pyStrip (pyLower t)
  if ['0', 'x'].isPrefixOf t' then t' else '0' :: 'x' :: t'

/-- The per-candidate comparison `address.lower() == target_address.lower()`
(bip39_bruteforce.py line 117) composed with the bip39 one-time target
normalization: the complete bip39 matching pipeline. -/
def bip39_address_matches (address target : PyStr) : Bool :=
  pyLower address == pyLower (bip39_normalize_target target)

/-! ## Derivation strategy registry (hybrid script) -/

/-- One entry of the results dict built by `test_all_methods`. -/
structure MethodResult where
  key : String
  name : String
  address : Option PyStr
  matched : Bool
  error : Option String
deriving DecidableEq

/-- `test_all_methods` lines 173-178: the fixed method registry in
insertion (registration) order. -/
def methodOrder : List (String × String) :=
  [("keystone", "SLIP-39 Native (Keystone)"),
   ("trezor_bip39", "SLIP-39 + BIP-39 Mode (Trezor?)"),
   ("manual_bip39", "Manual BIP-39 Derivation"),
   ("trezor_pure", "Pure Trezor Mode (BIP-39 Step1+Step2)")]

/-- `test_all_methods` lines 180-200.  `derive` is the oracle modelling
`slip39_seed_to_eth_address` (a wrapper over external crypto libraries,
keyed by method); a Python exception is modelled as `Except.error`.  The
`try/except` around each method turns an error into an entry with
`matches = False` and the error recorded, and the loop moves on. -/
def test_all_methods (derive : String → PyStr → Except String PyStr)
    (passphrase : PyStr) (target_address : PyStr) : List MethodResult :=
  methodOrder.map fun m =>
    match derive m.1 passphrase with
    | .ok address =>
      { key := m.1, name := m.2, address := some address,
        matched := pyLower address == pyLower target_address, error := none }
    | .error e =>
      { key := m.1, name := m.2, address := none, matched := false,
        error := some e }

/-- The `for method_key, result in passphrase_results.items(): if
result["matches"]: ...; break` scan of the hybrid `main` (lines 312-317). -/
def firstMatch : List MethodResult → Option MethodResult
  | [] => none
  | r :: rs => if r.matched then some r else firstMatch rs

/-- Whether any derivation method matches a candidate (`match_found` in the
hybrid `main`). -/
def any_method_matches (derive : String → PyStr → Except String PyStr)
    (target : PyStr) (p : PyStr) : Bool :=
  (firstMatch (test_all_methods derive p target)).isSome

/-! ## Search controllers -/

/-- The enumeration loop of `brute_force_slip39_words` (main.py lines
161-193), abstracted over the recovery outcome per passphrase: returns the
passphrases actually evaluated, in order, plus the found passphrase. -/
def searchLoop (recover : PyStr → Option PyStr) :
    List PyStr → List PyStr × Option PyStr
  | [] => ([], none)
  | p :: ps =>
    match recover p with
    | some _ => ([p], some p)
    | none =>
      let r := searchLoop recover ps
      (p :: r.1, r.2)

/-- `brute_force_slip39_words` (main.py lines 99-195): the empty passphrase
is tried first (line 118), then the word combinations are enumerated. -/
def brute_force_slip39_words (recover : PyStr → Option PyStr)
    (words : List PyStr) : List PyStr × Option PyStr :=
  match recover [] with
  | some _ => ([[]], some [])
  | none =>
    let r := searchLoop recover (generate_word_combinations words)
    ([] :: r.1, r.2)

/-- The step-3 loop of the hybrid `main` (lines 294-378): the empty
candidate yielded by the generator is skipped (line 298, already tested);
the loop stops on the first matching candidate. -/
def hybridLoop (derive : String → PyStr → Except String PyStr)
    (target : PyStr) : List PyStr → List PyStr × Option PyStr
  | [] => ([], none)
  | p :: ps =>
    if p = [] then hybridLoop derive target ps
    else if any_method_matches derive target p then ([p], some p)
    else
      let r := hybridLoop derive target ps
      (p :: r.1, r.2)

/-- Steps 2-3 of the hybrid `main` (lines 258-378): the empty passphrase is
tested with all methods first (line 260), then the generator output is
enumerated.  Returns the evaluated passphrases in order plus the result. -/
def hybrid_main_search (derive : String → PyStr → Except String PyStr)
    (components : List PyStr) (target : PyStr) : List PyStr × Option PyStr :=
  if any_method_matches derive target [] then ([[]], some [])
  else
    let r := hybridLoop derive target (generate_passphrase_combinations components)
    ([] :: r.1, r.2)

/-- The candidate loop of `brute_force_bip39_passphrase`
(bip39_bruteforce.py lines 105-128): a derivation error on one candidate is
caught (lines 123-125) and the loop continues with the next candidate. -/
def brute_force_bip39_loop (derive : PyStr → Except String PyStr)
    (target : PyStr) : List PyStr → Option PyStr
  | [] => none
  | p :: ps =>
    match derive p with
    | .ok address =>
      if pyLower address == pyLower target then some p
      else brute_force_bip39_loop derive target ps
    | .error _ => brute_force_bip39_loop derive target ps

/-! ## SLIP-39 share parsing and recovery wrapper (main.py lines 28-96) -/

/-- The inner chunking loop of `parse_mnemonic_shares` (main.py lines
56-63): accumulate words, emit a share whenever 20 or 33 words have been
collected or the input is exhausted. -/
def chunkShares : List PyStr → List PyStr → List PyStr
  | [], _ => []
  | [w], acc => [List.intercalate [' '] (acc ++ [w])]
  | w :: ws@(_ :: _), acc =>
    let acc' := acc ++ [w]
    if acc'.length = 20 ∨ acc'.length = 33 then
      List.intercalate [' '] acc' :: chunkShares ws []
    else chunkShares ws acc'

/-- `parse_mnemonic_shares` (main.py lines 28-68): split the mnemonic into
lines, then split lines of 40 or more words into 20/33-word chunks. -/
def parse_mnemonic_shares (mnemonic : PyStr) : List PyStr :=
  if mnemonic = [] then []
  else
    ((pyStrip mnemonic).splitOn '\n').flatMap fun line =>
      let line := pyStrip line
      if line = [] then []
      else
        let words := pySplitWs line
        if 40 ≤ words.length then chunkShares words []
        else [line]

/-- `try_recover_slip39` (main.py lines 71-96).  `recover` is the oracle
modelling `slip39.recover` (external library); a Python exception is
modelled as `Except.error`, and the surrounding `try/except` maps it to
`none`.  Passphrase bytes are modelled as the character list itself. -/
def try_recover_slip39 (recover : List PyStr → PyStr → Except Unit PyStr)
    (mnemonic passphrase : PyStr) : Option PyStr :=
  let shares := parse_mnemonic_shares mnemonic
  if shares = [] then none
  else
    let passphrase_bytes := if passphrase ≠ [] then passphrase else []
    match recover shares passphrase_bytes with
    | .ok secret => some secret
    | .error _ => none

/-! ## Ethereum address validation (bip39_bruteforce.py lines 158-175) -/

/-- ASCII hexadecimal digit. -/
def isHexDig (c : Char) : Bool :=
  ('0' ≤ c && c ≤ '9') || ('a' ≤ c && c ≤ 'f') || ('A' ≤ c && c ≤ 'F')

/-- Tail of a Python hex digit run: digits with single underscores allowed
between digits (PEP 515). -/
def hexTail : List Char → Bool
  | [] => true
  | c :: r =>
    if c = '_' then
      match r with
      | [] => false
      | d :: r2 => isHexDig d && hexTail r2
    else isHexDig c && hexTail r

/-- A non-empty Python hex digit run. -/
def hexRun : List Char → Bool
  | [] => false
  | c :: r => isHexDig c && hexTail r

/-- Strip one optional leading sign, as `int(s, 16)` does. -/
def dropSign (s : List Char) : List Char :=
  match s with
  | c :: r => if c = '+' || c = '-' then r else s
  | [] => s

/-- Success predicate of Python `int(s, 16)`: optional surrounding
whitespace, optional sign, optional `0x`/`0X` prefix (an underscore may
follow the prefix), then a non-empty hex digit run with single underscores
between digits. -/
def pyIntBase16Ok (s : List Char) : Bool :=
  let s1 := pyStrip s
  let s2 := dropSign s1
  if ['0', 'x'].isPrefixOf s2 || ['0', 'X'].isPrefixOf s2 then
    let r := s2.drop 2
    hexRun r ||
      (match r with
       | '_' :: r2 => hexRun r2
       | _ => false)
  else hexRun s2

/-- `validate_ethereum_address` (bip39_bruteforce.py lines 158-175):
empty check, strip an optional `0x`, length-40 check, then `int(addr, 16)`
inside `try/except`. -/
def validate_ethereum_address (address : PyStr) : Bool :=
  if address = [] then false
  else
    let address := if ['0', 'x'].isPrefixOf address then address.drop 2 else address
    if address.length ≠ 40 then false
    else pyIntBase16Ok address

/-- Sanity: the Python string helpers behave as `str.split` / `str.strip`. -/
theorem py_string_helpers_check :
    pySplitWs " ab  cd ".data = [['a', 'b'], ['c', 'd']] ∧
    pyStrip "  ab ".data = ['a', 'b'] ∧
    parse_mnemonic_shares "ab cd\nef".data = ["ab cd".data, "ef".data] := by
  decide

/-! ## Character-level lemmas -/

theorem char_toNat_ofNat {n : Nat} (h : n.isValidChar) :
    (Char.ofNat n).toNat = n := by
  rw [Char.ofNat, dif_pos h]
  rfl

theorem toLower_toLower (c : Char) : c.toLower.toLower = c.toLower := by
  simp only [Char.toLower]
  split
  · next h =>
    have h2 : (Char.ofNat (c.toNat + 32)).toNat = c.toNat + 32 :=
      char_toNat_ofNat (Or.inl (by omega))
    rw [h2]
    split
    · next h3 => omega
    · rfl
  · rfl

theorem pyLower_pyLower (s : PyStr) : pyLower (pyLower s) = pyLower s := by
  simp [pyLower, List.map_map, Function.comp_def, toLower_toLower]

/-! ## Lemmas about the candidate traces (for the empty-first property) -/

theorem intercalate_ne_nil {w : PyStr} (hw : w ≠ []) (l : List PyStr) :
    List.intercalate [' '] (w :: l) ≠ [] := by
  cases l with
  | nil => simpa [List.intercalate] using hw
  | cons v t =>
    have : List.intercalate [' '] (w :: v :: t) =
        w ++ [' '] ++ List.intercalate [' '] (v :: t) := by
      simp [List.intercalate, List.intersperse]
    rw [this]
    simp

theorem nil_not_mem_gwc {words : List PyStr} (hw : ∀ w ∈ words, w ≠ []) :
    ¬ (([] : PyStr) ∈ generate_word_combinations words) := by
  intro h
  rw [generate_word_combinations] at h
  simp only [List.mem_flatMap, List.mem_map] at h
  obtain ⟨L, hL, c, hc, p, hp, hjoin⟩ := h
  have hperm : p.Perm c := perm_of_mem_permsAux le_rfl hp
  have hclen := length_of_mem_combinations hc
  have hL1 : 1 ≤ L := (List.mem_range'_1.mp hL).1
  have hplen : p.length = L := by rw [hperm.length_eq, hclen]
  cases p with
  | nil => simp at hplen; omega
  | cons w t =>
    have hwmem : w ∈ words :=
      List.Sublist.mem (hperm.subset (by simp)) (sublist_of_mem_combinations hc)
    exact intercalate_ne_nil (hw w hwmem) t hjoin

theorem searchLoop_trace_sublist (recover : PyStr → Option PyStr)
    (ps : List PyStr) : (searchLoop recover ps).1.Sublist ps := by
  induction ps with
  | nil => simp [searchLoop]
  | cons p ps ih =>
    rw [searchLoop]
    cases recover p with
    | some s => exact (List.nil_sublist ps).cons₂ p
    | none => exact ih.cons₂ p

theorem hybridLoop_trace_ne_nil (derive : String → PyStr → Except String PyStr)
    (target : PyStr) (ps : List PyStr) :
    ∀ x ∈ (hybridLoop derive target ps).1, x ≠ [] := by
  induction ps with
  | nil => simp [hybridLoop]
  | cons p ps ih =>
    rw [hybridLoop]
    by_cases hp : p = []
    · rw [if_pos hp]
      exact ih
    · rw [if_neg hp]
      by_cases hm : any_method_matches derive target p = true
      · rw [if_pos hm]
        intro x hx
        rw [List.mem_singleton.mp hx]
        exact hp
      · rw [if_neg hm]
        intro x hx
        rcases List.mem_cons.mp hx with rfl | hx'
        · exact hp
        · exact ih x hx'

/-! ## Lemmas about the strategy registry scan -/

theorem firstMatch_eq_some {rs : List MethodResult} {r : MethodResult}
    (h : firstMatch rs = some r) :
    r.matched = true ∧
      ∃ l1 l2, rs = l1 ++ r :: l2 ∧ ∀ x ∈ l1, x.matched = false := by
  induction rs with
  | nil => simp [firstMatch] at h
  | cons a rs ih =>
    rw [firstMatch] at h
    by_cases ha : a.matched
    · rw [if_pos ha] at h
      obtain rfl := Option.some.inj h
      exact ⟨ha, [], rs, rfl, by simp⟩
    · rw [if_neg ha] at h
      obtain ⟨hm, l1, l2, hrs, hall⟩ := ih h
      refine ⟨hm, a :: l1, l2, by rw [hrs]; rfl, ?_⟩
      intro x hx
      rcases List.mem_cons.mp hx with rfl | hx'
      · simpa using ha
      · exact hall x hx'

theorem test_all_methods_keys (derive : String → PyStr → Except String PyStr)
    (p t : PyStr) :
    (test_all_methods derive p t).map (fun r => r.key) = methodOrder.map Prod.fst := by
  rw [test_all_methods, List.map_map]
  apply List.map_congr_left
  intro m _
  simp only [Function.comp_apply]
  cases derive m.1 p <;> rfl

theorem test_all_methods_entry {derive : String → PyStr → Except String PyStr}
    {p t : PyStr} {r : MethodResult} (hr : r ∈ test_all_methods derive p t) :
    (∀ e, derive r.key p = .error e →
      r.matched = false ∧ r.address = none ∧ r.error = some e) ∧
    (∀ a, derive r.key p = .ok a →
      r.address = some a ∧ r.matched = (pyLower a == pyLower t) ∧
        r.error = none) := by
  rw [test_all_methods] at hr
  obtain ⟨m, _, rfl⟩ := List.mem_map.mp hr
  cases hd : derive m.1 p with
  | ok a =>
    constructor
    · intro e he
      rw [hd] at he
      simp at he
    · intro a' ha'
      rw [hd] at ha'
      obtain rfl := Except.ok.inj ha'
      exact ⟨rfl, rfl, rfl⟩
  | error e =>
    constructor
    · intro e' he'
      rw [hd] at he'
      obtain rfl := Except.error.inj he'
      exact ⟨rfl, rfl, rfl⟩
    · intro a' ha'
      rw [hd] at ha'
      simp at ha'

/-! ## Lemmas about hex validation -/

/-- The claim's "remove an optional leading `0x` prefix" operation. -/
def strip_0x (address : PyStr) : PyStr :=
  if ['0', 'x'].isPrefixOf address then address.drop 2 else address

theorem validate_eq (a : PyStr) : validate_ethereum_address a =
    if a = [] then false
    else if (strip_0x a).length ≠ 40 then false
    else pyIntBase16Ok (strip_0x a) := rfl

theorem hexTail_of_all_hex {l : List Char} (h : ∀ c ∈ l, isHexDig c = true) :
    hexTail l = true := by
  induction l with
  | nil => rfl
  | cons c r ih =>
    have hc := h c (by simp)
    have hcu : ¬ c = '_' := by
      intro hcu
      rw [hcu] at hc
      exact absurd hc (by decide)
    rw [hexTail.eq_def]
    dsimp only
    rw [if_neg hcu, hc, ih (fun d hd => h d (by simp [hd]))]
    rfl

theorem hexRun_of_all_hex {l : List Char} (hne : l ≠ [])
    (h : ∀ c ∈ l, isHexDig c = true) : hexRun l = true := by
  cases l with
  | nil => exact absurd rfl hne
  | cons c r =>
    rw [hexRun, h c (by simp), hexTail_of_all_hex (fun d hd => h d (by simp [hd]))]
    rfl

theorem not_space_of_hex {c : Char} (h : isHexDig c = true) :
    isPySpace c = false := by
  by_contra hs
  simp only [Bool.not_eq_false] at hs
  simp only [isPySpace, Bool.or_eq_true, decide_eq_true_eq] at hs
  rcases hs with ((((rfl | rfl) | rfl) | rfl) | rfl) | rfl <;>
    exact absurd h (by decide)

theorem dropWhile_eq_self_of_no_space {l : List Char}
    (h : ∀ c ∈ l, isPySpace c = false) : l.dropWhile isPySpace = l := by
  cases l with
  | nil => rfl
  | cons c r =>
    rw [List.dropWhile_cons, if_neg]
    simp [h c (by simp)]

theorem pyStrip_of_no_space {l : List Char}
    (h : ∀ c ∈ l, isPySpace c = false) : pyStrip l = l := by
  rw [pyStrip, dropWhile_eq_self_of_no_space h,
    dropWhile_eq_self_of_no_space (fun c hc => h c (List.mem_reverse.mp hc)),
    List.reverse_reverse]

theorem dropSign_of_all_hex {l : List Char}
    (h : ∀ c ∈ l, isHexDig c = true) : dropSign l = l := by
  cases l with
  | nil => rfl
  | cons c r =>
    rw [dropSign, if_neg]
    intro hc
    simp only [Bool.or_eq_true, decide_eq_true_eq] at hc
    have := h c (by simp)
    rcases hc with rfl | rfl <;> exact absurd this (by decide)

theorem eq_cons_cons_of_isPrefixOf {c1 c2 : Char} {l : List Char}
    (h : [c1, c2].isPrefixOf l = true) : ∃ t, l = c1 :: c2 :: t := by
  cases l with
  | nil => simp [List.isPrefixOf] at h
  | cons a r =>
    cases r with
    | nil => simp [List.isPrefixOf] at h
    | cons b t =>
      simp only [List.isPrefixOf, Bool.and_eq_true, beq_iff_eq] at h
      obtain ⟨rfl, rfl, -⟩ := h
      exact ⟨t, rfl⟩

theorem prefix_false_of_all_hex {l : List Char}
    (h : ∀ c ∈ l, isHexDig c = true) :
    (['0', 'x'].isPrefixOf l || ['0', 'X'].isPrefixOf l) = false := by
  rw [Bool.or_eq_false_iff]
  constructor
  · by_contra hp
    simp only [Bool.not_eq_false] at hp
    obtain ⟨t, rfl⟩ := eq_cons_cons_of_isPrefixOf hp
    exact absurd (h 'x' (by simp)) (by decide)
  · by_contra hp
    simp only [Bool.not_eq_false] at hp
    obtain ⟨t, rfl⟩ := eq_cons_cons_of_isPrefixOf hp
    exact absurd (h 'X' (by simp)) (by decide)

theorem pyIntBase16Ok_of_all_hex {l : List Char} (hne : l ≠ [])
    (h : ∀ c ∈ l, isHexDig c = true) : pyIntBase16Ok l = true := by
  rw [pyIntBase16Ok]
  simp only [pyStrip_of_no_space (fun c hc => not_space_of_hex (h c hc)),
    dropSign_of_all_hex h, prefix_false_of_all_hex h]
  simp only [Bool.false_eq_true, if_false]
  exact hexRun_of_all_hex hne h

/-! ## Claim theorems -/

/-- **C1** (counterexample): the claim says every cited Candidate Generator
yields exactly `Σ_{L=1..n} C(n,L)·L!` candidates — 15 for n = 3 — but the
hybrid script's `generate_passphrase_combinations` yields 16 strings for
`["a","b","c"]`, because it yields the empty passphrase as well. -/
theorem claim_C1_counterexample :
    (generate_passphrase_combinations [['a'], ['b'], ['c']]).length = 16 ∧
    (generate_passphrase_combinations [['a'], ['b'], ['c']]).length ≠ 15 := by
  decide

/-- **C1** (amended): for every ComponentSet of size `n ≥ 1`, the `main.py`
and `bip39_bruteforce.py` generators yield exactly `Σ_{L=1..n} C(n,L)·L!`
candidates (15 for n = 3), while the hybrid generator yields one extra
leading empty-string candidate, i.e. `1 + Σ_{L=1..n} C(n,L)·L!`. -/
theorem claim_C1_candidate_count (words : List PyStr) (_h : 1 ≤ words.length) :
    (generate_word_combinations words).length =
      ∑ L ∈ Finset.Icc 1 words.length,
        Nat.choose words.length L * Nat.factorial L ∧
    (bip39_generate_word_combinations words).length =
      ∑ L ∈ Finset.Icc 1 words.length,
        Nat.choose words.length L * Nat.factorial L ∧
    (generate_passphrase_combinations words).length =
      1 + ∑ L ∈ Finset.Icc 1 words.length,
        Nat.choose words.length L * Nat.factorial L := by
  refine ⟨?_, ?_, ?_⟩
  · rw [gwc_length, listFormula_eq_sum]
  · rw [bip39_gwc_length, listFormula_eq_sum]
  · rw [gpc_length, listFormula_eq_sum]

/-- **C1** witness: the amended count law evaluated at the three-component
set `["a","b","c"]`. -/
theorem claim_C1_witness :
    (generate_word_combinations [['a'], ['b'], ['c']]).length =
      ∑ L ∈ Finset.Icc 1 3, Nat.choose 3 L * Nat.factorial L ∧
    (bip39_generate_word_combinations [['a'], ['b'], ['c']]).length =
      ∑ L ∈ Finset.Icc 1 3, Nat.choose 3 L * Nat.factorial L ∧
    (generate_passphrase_combinations [['a'], ['b'], ['c']]).length =
      1 + ∑ L ∈ Finset.Icc 1 3, Nat.choose 3 L * Nat.factorial L :=
  claim_C1_candidate_count [['a'], ['b'], ['c']] (by decide)

/-- **C2**: both search controllers evaluate the empty passphrase exactly
once, before any generator-produced candidate: its evaluation trace starts
with the empty string and contains it exactly once (for `main.py` this
needs the components to be non-empty strings; the hybrid loop explicitly
skips the generator's leading empty string, which the generator does yield
first). -/
theorem claim_C2_empty_first
    (recover : PyStr → Option PyStr) (words : List PyStr)
    (hw : ∀ w ∈ words, w ≠ [])
    (derive : String → PyStr → Except String PyStr)
    (components : List PyStr) (target : PyStr) :
    ((brute_force_slip39_words recover words).1.head? = some [] ∧
      (brute_force_slip39_words recover words).1.count [] = 1) ∧
    ((hybrid_main_search derive components target).1.head? = some [] ∧
      (hybrid_main_search derive components target).1.count [] = 1) ∧
    (generate_passphrase_combinations components).head? = some [] := by
  refine ⟨⟨?_, ?_⟩, ⟨?_, ?_⟩, rfl⟩
  · rw [brute_force_slip39_words]
    cases recover [] <;> rfl
  · rw [brute_force_slip39_words]
    cases recover [] with
    | none =>
      have h0 : (searchLoop recover (generate_word_combinations words)).1.count
          ([] : PyStr) = 0 := by
        have hle := (searchLoop_trace_sublist recover
          (generate_word_combinations words)).count_le ([] : PyStr)
        have hg : (generate_word_combinations words).count ([] : PyStr) = 0 :=
          List.count_eq_zero.mpr (nil_not_mem_gwc hw)
        omega
      simp [List.count_cons, h0]
    | some s => rfl
  · rw [hybrid_main_search]
    by_cases hm : any_method_matches derive target [] = true
    · rw [if_pos hm]
      rfl
    · rw [if_neg hm]
      rfl
  · rw [hybrid_main_search]
    by_cases hm : any_method_matches derive target [] = true
    · rw [if_pos hm]
      rfl
    · rw [if_neg hm]
      have h0 : (hybridLoop derive target
          (generate_passphrase_combinations components)).1.count ([] : PyStr) = 0 :=
        List.count_eq_zero.mpr fun hmem =>
          hybridLoop_trace_ne_nil derive target _ [] hmem rfl
      simp [List.count_cons, h0]

/-- **C2** witness: the empty-first property evaluated with a recovery
oracle that never succeeds, a derivation oracle that always fails, and the
concrete component sets `["a"]`. -/
theorem claim_C2_witness :
    ((brute_force_slip39_words (fun _ => none) [['a']]).1.head? = some [] ∧
      (brute_force_slip39_words (fun _ => none) [['a']]).1.count [] = 1) ∧
    ((hybrid_main_search (fun _ _ => .error "e") [['a']] ['t']).1.head? = some [] ∧
      (hybrid_main_search (fun _ _ => .error "e") [['a']] ['t']).1.count [] = 1) ∧
    (generate_passphrase_combinations [['a']]).head? = some [] :=
  claim_C2_empty_first (fun _ => none) [['a']] (by decide)
    (fun _ _ => .error "e") [['a']] ['t']

/-- **C3**: the candidate order is exactly: subset sizes ascending, subsets
in the ComponentSet's original index order (each index tuple strictly
increasing, tuples in lexicographic order), and within a subset every
permutation exactly once, in lexicographic order of its index sequence.
Both cited generators are the image of this index-level enumeration. -/
theorem claim_C3_enumeration_order (words : List PyStr) :
    (generate_word_combinations words = (idxCandidates words.length).map
        (fun is => List.intercalate [' '] (is.map (fun i => words.getD i [])))) ∧
    (bip39_generate_word_combinations words = (idxCandidates words.length).map
        (fun is => (is.map (fun i => words.getD i [])).flatten)) ∧
    (idxCandidates words.length).Pairwise (fun a b => a.length ≤ b.length) ∧
    (∀ L, (combinations L (List.range words.length)).Pairwise
      (List.Lex (· < ·))) ∧
    (∀ L, ∀ c ∈ combinations L (List.range words.length),
      c.Pairwise (· < ·)) ∧
    (∀ c : List Nat, c.Pairwise (· < ·) →
      (permutationsL c).Pairwise (List.Lex (· < ·))) ∧
    (∀ c p : List Nat, p ∈ permutationsL c ↔ p.Perm c) :=
  ⟨gen_eq_idx _ words, gen_eq_idx _ words,
    idxCandidates_length_ascending _,
    fun _ => combinations_pairwise_lex (List.pairwise_lt_range _) _,
    fun _ _ hc => List.Pairwise.sublist (sublist_of_mem_combinations hc)
      (List.pairwise_lt_range _),
    fun _ hc => permutationsL_pairwise_lex hc,
    fun _ _ => mem_permutationsL_iff⟩

/-- **C3** witness: the permutation-order clauses evaluated at the concrete
index set `[0, 1]`. -/
theorem claim_C3_witness :
    (permutationsL [0, 1]).Pairwise (List.Lex (· < ·)) ∧
    ([1, 0] : List Nat).Perm [0, 1] :=
  ⟨(claim_C3_enumeration_order [['a'], ['b']]).2.2.2.2.2.1 [0, 1] (by decide),
   ((claim_C3_enumeration_order [['a'], ['b']]).2.2.2.2.2.2 [0, 1] [1, 0]).mp
     (by decide)⟩

/-- **C4** (counterexample): the claim says an empty ComponentSet yields
nothing and a singleton yields exactly one candidate, but the cited hybrid
generator yields the empty string for n = 0 and two candidates for n = 1. -/
theorem claim_C4_counterexample :
    generate_passphrase_combinations ([] : List PyStr) = [[]] ∧
    generate_passphrase_combinations [['a']] = [[], ['a']] := by
  decide

/-- **C4** (amended): the `main.py` and `bip39_bruteforce.py` generators
yield nothing for n = 0 and exactly the single word for n = 1; the hybrid
generator additionally yields a leading empty string in both cases. -/
theorem claim_C4_edge_cases (w : PyStr) :
    generate_word_combinations ([] : List PyStr) = [] ∧
    generate_word_combinations [w] = [w] ∧
    bip39_generate_word_combinations ([] : List PyStr) = [] ∧
    bip39_generate_word_combinations [w] = [w] ∧
    generate_passphrase_combinations ([] : List PyStr) = [[]] ∧
    generate_passphrase_combinations [w] = [[], w] := by
  refine ⟨rfl, ?_, rfl, ?_, rfl, ?_⟩
  · show [List.intercalate [' '] [w]] = [w]
    simp [List.intercalate]
  · show [List.flatten [w]] = [w]
    simp
  · show ([] :: [List.flatten [w]] : List PyStr) = [[], w]
    simp

/-- **C4** witness: the amended edge-case law evaluated at the word `"x"`. -/
theorem claim_C4_witness :
    generate_word_combinations ([] : List PyStr) = [] ∧
    generate_word_combinations [['x']] = [['x']] ∧
    bip39_generate_word_combinations ([] : List PyStr) = [] ∧
    bip39_generate_word_combinations [['x']] = [['x']] ∧
    generate_passphrase_combinations ([] : List PyStr) = [[]] ∧
    generate_passphrase_combinations [['x']] = [[], ['x']] :=
  claim_C4_edge_cases ['x']

/-- **C5** (counterexample): the hybrid `count_total_combinations` and the
`main.py` closed form do *not* agree: on `["a","b","c"]` they give 16 and
15 respectively, because the hybrid counter also counts the empty
passphrase. -/
theorem claim_C5_counterexample :
    count_total_combinations [['a'], ['b'], ['c']] = 16 ∧
    totalCombinationsMain [['a'], ['b'], ['c']] = 15 ∧
    count_total_combinations [['a'], ['b'], ['c']] ≠
      totalCombinationsMain [['a'], ['b'], ['c']] := by
  decide

/-- **C5** (amended): `main.py`'s closed form equals the spec formula
`Σ_{L=1..n} C(n,L)·L!` exactly; the hybrid's enumeration-based counter
equals `1 +` that formula — one more on every input (its generator's empty
candidate) — and agrees exactly with its own generator's output length. -/
theorem claim_C5_total_count (components : List PyStr) :
    count_total_combinations components = 1 + totalCombinationsMain components ∧
    totalCombinationsMain components =
      ∑ L ∈ Finset.Icc 1 components.length,
        Nat.choose components.length L * Nat.factorial L ∧
    count_total_combinations components =
      (generate_passphrase_combinations components).length := by
  refine ⟨?_, ?_, ?_⟩
  · rw [count_total_eq, mainTotal_eq]
  · rw [mainTotal_eq, listFormula_eq_sum]
  · rw [count_total_eq, gpc_length]

/-- **C5** witness: the amended counting law evaluated at `["a","b","c"]`. -/
theorem claim_C5_witness :
    count_total_combinations [['a'], ['b'], ['c']] =
      1 + totalCombinationsMain [['a'], ['b'], ['c']] ∧
    totalCombinationsMain [['a'], ['b'], ['c']] =
      ∑ L ∈ Finset.Icc 1 3, Nat.choose 3 L * Nat.factorial L ∧
    count_total_combinations [['a'], ['b'], ['c']] =
      (generate_passphrase_combinations [['a'], ['b'], ['c']]).length :=
  claim_C5_total_count [['a'], ['b'], ['c']]

theorem pyLower_0x_cons (t : PyStr) :
    pyLower ('0' :: 'x' :: t) = '0' :: 'x' :: pyLower t := by
  simp only [pyLower, List.map_cons]
  rw [show '0'.toLower = '0' from by decide, show 'x'.toLower = 'x' from by decide]

/-- **C6** (counterexample): in both cited pipelines the comparison outcome
is *not* invariant under presence of the `0x` prefix on the derived side —
the derived identity `"aa"` does not match the target `"0xAA"` while
`"0xaa"` does — and in the bip39 pipeline it is not even invariant on the
target side once the target carries surrounding whitespace: `"0xaa"`
matches the target `" AA"` (stripped to `aa`, then prefixed) but not
`"0x AA"` (the inner whitespace survives the normalization). -/
theorem claim_C6_counterexample :
    address_matches ['a', 'a'] ['0', 'x', 'A', 'A'] = false ∧
    address_matches ['0', 'x', 'a', 'a'] ['0', 'x', 'A', 'A'] = true ∧
    bip39_address_matches ['a', 'a'] ['0', 'x', 'A', 'A'] = false ∧
    bip39_address_matches ['0', 'x', 'a', 'a'] ['0', 'x', 'A', 'A'] = true ∧
    bip39_address_matches ['0', 'x', 'a', 'a'] (' ' :: ['A', 'A']) = true ∧
    bip39_address_matches ['0', 'x', 'a', 'a']
      ('0' :: 'x' :: ' ' :: ['A', 'A']) = false := by
  decide

/-- **C6** (amended): only the target entry receives the full normalization
— the hybrid lower-cases then prepends `0x`; bip39 lower-cases, strips
surrounding whitespace, then prepends `0x` — while the derived identity is
only lower-cased.  In both pipelines the outcome is invariant under letter
case on either side; it is invariant under the `0x` prefix on the target
side in the hybrid always, and in bip39 only for whitespace-free targets;
and in both a derived identity can match only if its lower-casing itself
starts with `0x`. -/
theorem claim_C6_normalization (a t : PyStr) :
    (address_matches (pyLower a) t = address_matches a t) ∧
    (address_matches a (pyLower t) = address_matches a t) ∧
    (['0', 'x'].isPrefixOf (pyLower t) = false →
      address_matches a ('0' :: 'x' :: t) = address_matches a t) ∧
    (address_matches a t = true →
      ['0', 'x'].isPrefixOf (pyLower a) = true) ∧
    (bip39_address_matches (pyLower a) t = bip39_address_matches a t) ∧
    (bip39_address_matches a (pyLower t) = bip39_address_matches a t) ∧
    ((∀ c ∈ pyLower t, isPySpace c = false) →
      ['0', 'x'].isPrefixOf (pyLower t) = false →
      bip39_address_matches a ('0' :: 'x' :: t) = bip39_address_matches a t) ∧
    (bip39_address_matches a t = true →
      ['0', 'x'].isPrefixOf (pyLower a) = true) := by
  refine ⟨?_, ?_, ?_, ?_, ?_, ?_, ?_, ?_⟩
  · rw [address_matches, address_matches, pyLower_pyLower]
  · simp only [address_matches, normalize_target, pyLower_pyLower]
  · intro hp
    have h1 : ['0', 'x'].isPrefixOf ('0' :: 'x' :: pyLower t) = true := by
      simp [List.isPrefixOf]
    simp only [address_matches, normalize_target, pyLower_0x_cons, h1, hp,
      if_true, Bool.false_eq_true, if_false]
  · intro h
    have heq : pyLower a = pyLower (normalize_target t) := eq_of_beq h
    rw [heq]
    simp only [normalize_target]
    by_cases hp : ['0', 'x'].isPrefixOf (pyLower t) = true
    · rw [if_pos hp, pyLower_pyLower]
      exact hp
    · rw [if_neg hp, pyLower_0x_cons]
      simp [List.isPrefixOf]
  · rw [bip39_address_matches, bip39_address_matches, pyLower_pyLower]
  · simp only [bip39_address_matches, bip39_normalize_target, pyLower_pyLower]
  · intro hws hp
    have hstrip : pyStrip (pyLower t) = pyLower t := pyStrip_of_no_space hws
    have hstrip2 : pyStrip ('0' :: 'x' :: pyLower t) =
        '0' :: 'x' :: pyLower t := by
      apply pyStrip_of_no_space
      intro c hc
      rcases List.mem_cons.mp hc with rfl | hc2
      · decide
      rcases List.mem_cons.mp hc2 with rfl | hc3
      · decide
      · exact hws c hc3
    have h1 : ['0', 'x'].isPrefixOf ('0' :: 'x' :: pyLower t) = true := by
      simp [List.isPrefixOf]
    simp only [bip39_address_matches, bip39_normalize_target, pyLower_0x_cons,
      hstrip, hstrip2, h1, hp, if_true, Bool.false_eq_true, if_false]
  · intro h
    have heq : pyLower a = pyLower (bip39_normalize_target t) := eq_of_beq h
    rw [heq]
    simp only [bip39_normalize_target]
    by_cases hp : ['0', 'x'].isPrefixOf (pyStrip (pyLower t)) = true
    · rw [if_pos hp]
      obtain ⟨r, hr⟩ := eq_cons_cons_of_isPrefixOf hp
      rw [hr, pyLower_0x_cons]
      simp [List.isPrefixOf]
    · rw [if_neg hp, pyLower_0x_cons]
      simp [List.isPrefixOf]

/-- **C6** witness: the target-side `0x` invariance and the derived-side
prefix condition of both pipelines, evaluated at the concrete pairs
`("0xa", "aa")`, `("0xa", "0xa")` and `("0xb", "0xb")`. -/
theorem claim_C6_witness :
    (address_matches ['0', 'x', 'a'] ('0' :: 'x' :: ['a', 'a']) =
      address_matches ['0', 'x', 'a'] ['a', 'a']) ∧
    ['0', 'x'].isPrefixOf (pyLower ['0', 'x', 'a']) = true ∧
    (bip39_address_matches ['0', 'x', 'a'] ('0' :: 'x' :: ['a', 'a']) =
      bip39_address_matches ['0', 'x', 'a'] ['a', 'a']) ∧
    ['0', 'x'].isPrefixOf (pyLower ['0', 'x', 'b']) = true :=
  ⟨(claim_C6_normalization ['0', 'x', 'a'] ['a', 'a']).2.2.1 (by decide),
   (claim_C6_normalization ['0', 'x', 'a'] ['0', 'x', 'a']).2.2.2.1 (by decide),
   (claim_C6_normalization ['0', 'x', 'a'] ['a', 'a']).2.2.2.2.2.2.1
     (by decide) (by decide),
   (claim_C6_normalization ['0', 'x', 'b'] ['0', 'x', 'b']).2.2.2.2.2.2.2
     (by decide)⟩

/-- **C7**: when the hybrid controller reports a match, the reported entry
is the first matching strategy in registration order: all registry entries
that precede it in the per-candidate results did not match, and the
results are listed in the fixed registration order
keystone, trezor_bip39, manual_bip39, trezor_pure. -/
theorem claim_C7_first_match (derive : String → PyStr → Except String PyStr)
    (p t : PyStr) (r : MethodResult)
    (h : firstMatch (test_all_methods derive p t) = some r) :
    r.matched = true ∧
    (∃ l1 l2, test_all_methods derive p t = l1 ++ r :: l2 ∧
      ∀ x ∈ l1, x.matched = false) ∧
    (test_all_methods derive p t).map (fun x => x.key) =
      ["keystone", "trezor_bip39", "manual_bip39", "trezor_pure"] := by
  obtain ⟨hm, hsplit⟩ := firstMatch_eq_some h
  refine ⟨hm, hsplit, ?_⟩
  rw [test_all_methods_keys]
  rfl

/-- **C7** witness: with an oracle under which every strategy matches, the
reported strategy is `keystone`, the first in registration order. -/
theorem claim_C7_witness :
    ({ key := "keystone", name := "SLIP-39 Native (Keystone)",
       address := some [], matched := true, error := none } : MethodResult).matched
        = true ∧
    (∃ l1 l2, test_all_methods (fun _ _ => .ok []) [] [] =
        l1 ++ ({ key := "keystone", name := "SLIP-39 Native (Keystone)",
                 address := some [], matched := true,
                 error := none } : MethodResult) :: l2 ∧
      ∀ x ∈ l1, x.matched = false) ∧
    (test_all_methods (fun _ _ => .ok []) [] []).map (fun x => x.key) =
      ["keystone", "trezor_bip39", "manual_bip39", "trezor_pure"] :=
  claim_C7_first_match (fun _ _ => .ok []) [] [] _ rfl

/-- **C8**: a `DerivationError` is local: every registered strategy still
gets an entry (in registration order) no matter which strategies fail; a
failing strategy's entry records the error with `matches = False` while a
succeeding strategy's entry depends only on its own derivation result; and
in the bip39 loop an erroring candidate is skipped and the search continues
with the remaining candidates, never propagating the error. -/
theorem claim_C8_derivation_error_local
    (derive : String → PyStr → Except String PyStr) (p t : PyStr) :
    ((test_all_methods derive p t).map (fun r => r.key) =
      methodOrder.map Prod.fst) ∧
    (∀ r ∈ test_all_methods derive p t, ∀ e, derive r.key p = .error e →
      r.matched = false ∧ r.address = none ∧ r.error = some e) ∧
    (∀ r ∈ test_all_methods derive p t, ∀ a, derive r.key p = .ok a →
      r.address = some a ∧ r.matched = (pyLower a == pyLower t) ∧
        r.error = none) ∧
    (∀ (derive2 : PyStr → Except String PyStr) (target p2 : PyStr)
      (ps : List PyStr) (e : String), derive2 p2 = .error e →
      brute_force_bip39_loop derive2 target (p2 :: ps) =
        brute_force_bip39_loop derive2 target ps) := by
  refine ⟨test_all_methods_keys derive p t,
    fun r hr e he => (test_all_methods_entry hr).1 e he,
    fun r hr a ha => (test_all_methods_entry hr).2 a ha,
    fun derive2 target p2 ps e he => ?_⟩
  rw [brute_force_bip39_loop, he]

/-- **C8** witness: with an oracle that always raises, the `keystone` entry
records the error and does not match, and an erroring candidate is skipped
by the bip39 loop. -/
theorem claim_C8_witness :
    (({ key := "keystone", name := "SLIP-39 Native (Keystone)", address := none,
         matched := false, error := some "boom" } : MethodResult).matched = false ∧
      ({ key := "keystone", name := "SLIP-39 Native (Keystone)", address := none,
          matched := false, error := some "boom" } : MethodResult).address = none ∧
      ({ key := "keystone", name := "SLIP-39 Native (Keystone)", address := none,
          matched := false, error := some "boom" } : MethodResult).error = some "boom") ∧
    brute_force_bip39_loop (fun _ => .error "e") [] [['a'], ['b']] =
      brute_force_bip39_loop (fun _ => .error "e") [] [['b']] :=
  ⟨(claim_C8_derivation_error_local (fun _ _ => .error "boom") [] []).2.1
      _ (by decide) "boom" rfl,
   (claim_C8_derivation_error_local (fun _ _ => .error "boom") [] []).2.2.2
      (fun _ => .error "e") [] ['a'] [['b']] "e" rfl⟩

theorem passphrase_bytes_eq (p : PyStr) : (if p ≠ [] then p else []) = p := by
  by_cases h : p = [] <;> simp [h]

theorem try_recover_eq (recover : List PyStr → PyStr → Except Unit PyStr)
    (m p : PyStr) :
    try_recover_slip39 recover m p =
      if parse_mnemonic_shares m = [] then none
      else
        match recover (parse_mnemonic_shares m) p with
        | .ok s => some s
        | .error _ => none := by
  rw [try_recover_slip39]
  simp only [passphrase_bytes_eq]

/-- **C9**: `try_recover_slip39` is total: for every recovery oracle and
every input it returns `some` secret or `none`; an empty or whitespace-only
mnemonic, an unparsable mnemonic (no shares), or a recovery exception all
yield `none` — indistinguishable from a wrong passphrase — and a
successful recovery is returned unchanged. -/
theorem claim_C9_recover_total
    (recover : List PyStr → PyStr → Except Unit PyStr) (passphrase : PyStr) :
    (try_recover_slip39 recover [] passphrase = none) ∧
    (∀ m, m ≠ [] → pyStrip m = [] →
      try_recover_slip39 recover m passphrase = none) ∧
    (∀ m, parse_mnemonic_shares m = [] →
      try_recover_slip39 recover m passphrase = none) ∧
    (∀ m e, recover (parse_mnemonic_shares m) passphrase = .error e →
      try_recover_slip39 recover m passphrase = none) ∧
    (∀ m s, parse_mnemonic_shares m ≠ [] →
      recover (parse_mnemonic_shares m) passphrase = .ok s →
      try_recover_slip39 recover m passphrase = some s) := by
  have hshares : ∀ m, m ≠ [] → pyStrip m = [] → parse_mnemonic_shares m = [] := by
    intro m hm hs
    rw [parse_mnemonic_shares, if_neg hm, hs]
    rfl
  refine ⟨?_, ?_, ?_, ?_, ?_⟩
  · rw [try_recover_eq]
    rfl
  · intro m hm hs
    rw [try_recover_eq, if_pos (hshares m hm hs)]
  · intro m hpm
    rw [try_recover_eq, if_pos hpm]
  · intro m e he
    rw [try_recover_eq]
    by_cases hpm : parse_mnemonic_shares m = []
    · rw [if_pos hpm]
    · rw [if_neg hpm, he]
  · intro m s hpm hok
    rw [try_recover_eq, if_neg hpm, hok]

/-- **C9** witness: the recovery wrapper evaluated on the empty mnemonic, a
whitespace-only mnemonic, a failing oracle and a succeeding oracle. -/
theorem claim_C9_witness :
    try_recover_slip39 (fun _ _ => .error ()) [] ['x'] = none ∧
    try_recover_slip39 (fun _ _ => .error ()) [' '] ['x'] = none ∧
    try_recover_slip39 (fun _ _ => .error ()) ['a', 'b'] ['x'] = none ∧
    try_recover_slip39 (fun _ _ => .ok ['s']) ['a', 'b'] ['x'] = some ['s'] :=
  ⟨(claim_C9_recover_total (fun _ _ => .error ()) ['x']).1,
   (claim_C9_recover_total (fun _ _ => .error ()) ['x']).2.1 [' ']
     (by decide) (by decide),
   (claim_C9_recover_total (fun _ _ => .error ()) ['x']).2.2.2.1 ['a', 'b'] () rfl,
   (claim_C9_recover_total (fun _ _ => .ok ['s']) ['x']).2.2.2.2 ['a', 'b'] ['s']
     (by decide) rfl⟩

/-- **C10** (counterexample): `validate_ethereum_address` accepts the
40-character string `"+aaa...a"` (sign plus 39 hex digits), which is not
made of 40 hexadecimal characters, because Python's `int(s, 16)` also
accepts signs, surrounding whitespace, an inner `0x` prefix and
underscores. -/
theorem claim_C10_counterexample :
    validate_ethereum_address ('+' :: List.replicate 39 'a') = true ∧
    ('+' :: List.replicate 39 'a').all isHexDig = false ∧
    ('+' :: List.replicate 39 'a').length = 40 ∧
    ['0', 'x'].isPrefixOf ('+' :: List.replicate 39 'a') = false := by
  decide

/-- **C10** (amended): after removing an optional leading `0x`, a remainder
of exactly 40 hexadecimal characters is accepted; any remainder whose
length is not 40 is rejected, and acceptance implies the remainder has
length 40 — but acceptance also extends to 40-character remainders that
Python's lenient `int(s, 16)` parses (signs, whitespace, inner `0x`,
underscores), so "40 hex characters" is sufficient, not necessary. -/
theorem claim_C10_validate (a : PyStr) :
    ((strip_0x a).length = 40 → (∀ c ∈ strip_0x a, isHexDig c = true) →
      validate_ethereum_address a = true) ∧
    ((strip_0x a).length ≠ 40 → validate_ethereum_address a = false) ∧
    (validate_ethereum_address a = true → (strip_0x a).length = 40) := by
  refine ⟨?_, ?_, ?_⟩
  · intro hlen hhex
    have ha : a ≠ [] := by
      intro h
      subst h
      simp [strip_0x, List.isPrefixOf] at hlen
    rw [validate_eq, if_neg ha, if_neg (by omega)]
    refine pyIntBase16Ok_of_all_hex ?_ hhex
    intro h
    rw [h] at hlen
    simp at hlen
  · intro hlen
    rw [validate_eq]
    by_cases ha : a = []
    · rw [if_pos ha]
    · rw [if_neg ha, if_pos hlen]
  · intro hv
    rw [validate_eq] at hv
    by_cases ha : a = []
    · rw [if_pos ha] at hv
      exact absurd hv (by simp)
    · rw [if_neg ha] at hv
      by_cases hlen : (strip_0x a).length ≠ 40
      · rw [if_pos hlen] at hv
        exact absurd hv (by simp)
      · omega

/-- **C10** witness: the amended validation law evaluated at a 40-hex-digit
string, a 39-digit string, and a `0x`-prefixed accepted address. -/
theorem claim_C10_witness :
    validate_ethereum_address (List.replicate 40 'a') = true ∧
    validate_ethereum_address (List.replicate 39 'a') = false ∧
    (strip_0x ('0' :: 'x' :: List.replicate 40 'b')).length = 40 :=
  ⟨(claim_C10_validate (List.replicate 40 'a')).1 (by decide) (by decide),
   (claim_C10_validate (List.replicate 39 'a')).2.1 (by decide),
   (claim_C10_validate ('0' :: 'x' :: List.replicate 40 'b')).2.2 (by decide)⟩

end BruteForce
